import Mathlib

/-!
# Verification of `verify_biblo.py`

A shallow embedding of the bibliography parser/validator/fixer of
`verify_biblo.py`, together with proofs of the behavioural claims about it.

The character stream is modelled as a `List Char`; `f.read(1)` corresponds to
consuming the head of the list, and end of stream to the empty list.  Python
strings built by concatenation are modelled by `List Char` tokens (converted
to `String` when stored), Python dictionaries by association lists with
insert-or-overwrite-in-place semantics (`insertAttr`), and the externally
injected capabilities (the `titlecase` function and the `sub_words` table)
by explicit parameters `tc : String → String` and
`subs : List (String × String)`.
-/

namespace Biblo

/-- Lexer states of the attribute scanner, mirroring `ReadState` in the source. -/
inductive ReadState where
  | NONE
  | NAME
  | VALUE
  deriving DecidableEq, Repr

/-- Python `str.strip()` on the front: drop leading whitespace. -/
def stripFront (l : List Char) : List Char := l.dropWhile Char.isWhitespace

/-- Python `str.strip()` on the back: drop trailing whitespace. -/
def stripBack (l : List Char) : List Char := (l.reverse.dropWhile Char.isWhitespace).reverse

/-- Python `str.strip()` on a list of characters. -/
def pyStripL (l : List Char) : List Char := stripBack (stripFront l)

/-- Python `str.strip()`. -/
def pyStrip (s : String) : String := String.mk (pyStripL s.data)

/-- Python `str.lower()` (ASCII case folding, as used by the source). -/
def pyLower (s : String) : String := String.mk (s.data.map Char.toLower)

/-- Worker for `pySplit`: accumulates the current (reversed) word. -/
def splitGo : List Char → List Char → List String
  | [], acc => if acc = [] then [] else [String.mk acc.reverse]
  | c :: cs, acc =>
    if c.isWhitespace then
      if acc = [] then splitGo cs [] else String.mk acc.reverse :: splitGo cs []
    else splitGo cs (c :: acc)

/-- Python `str.split()` with no argument: split on whitespace runs, no empty words. -/
def pySplit (s : String) : List String := splitGo s.data []

/-- Assignment `d[k] = v` into a Python dict modelled as an association list:
if the key is present its value is replaced in place, otherwise the pair is
appended (insertion order preserved). -/
def insertAttr (attrs : List (String × String)) (k v : String) : List (String × String) :=
  match attrs with
  | [] => [(k, v)]
  | p :: ps => if p.1 = k then (k, v) :: ps else p :: insertAttr ps k v

/-- Python dict lookup on an association list. -/
def lookupA {α : Type} : List (String × α) → String → Option α
  | [], _ => none
  | p :: ps, k => if p.1 = k then some p.2 else lookupA ps k

/-- The body scanner of `read_entry` (the `while depth != 0` loop): a
three-state lexer with an explicit nesting depth counter.  Consumes
characters one at a time; returns `none` if the stream ends while the depth
is nonzero, otherwise the collected attributes and the unconsumed rest. -/
def scanBody : List Char → Nat → ReadState → List Char → String →
    List (String × String) → Option (List (String × String) × List Char)
  | cs, 0, _, _, _, attrs => some (attrs, cs)
  | [], _ + 1, _, _, _, _ => none
  | c :: cs, d + 1, state, token, attrName, attrs =>
    if c = '\x7b' then
      scanBody cs (d + 2) state (if 2 < d + 2 then token ++ [c] else token) attrName attrs
    else if c = '\x7d' then
      if state = ReadState.VALUE ∧ d = 1 then
        scanBody cs d ReadState.NONE [] attrName
          (insertAttr attrs attrName (String.mk (pyStripL token)))
      else
        scanBody cs d state (token ++ [c]) attrName attrs
    else if state = ReadState.NAME ∧ c = '=' then
      scanBody cs (d + 1) ReadState.VALUE [] (String.mk (pyStripL token)) attrs
    else if state = ReadState.NONE ∧ c = ',' then
      scanBody cs (d + 1) ReadState.NAME token attrName attrs
    else if state ≠ ReadState.NONE then
      scanBody cs (d + 1) state (token ++ [c]) attrName attrs
    else
      scanBody cs (d + 1) state token attrName attrs

/-- The initial `while cur != '@'` loop: skip to just past the first `'@'`;
`none` when the stream ends first (in the source this still falls through,
but every later loop then no-ops on the empty stream and the final
`depth != 0` check yields `None`, so the observable result is the same). -/
def findAt : List Char → Option (List Char)
  | [] => none
  | c :: cs => if c = '@' then some cs else findAt cs

/-- The `while cur != stop` accumulation loops of `read_entry` (used with
`stop = '\x7b'` for the type tag and `stop = ','` for the key): returns the
characters before the first `stop` together with the rest after it.
`none` when the stream ends first; in the source the token then keeps the
appended characters but the body loop immediately hits end of stream with
`depth = 1` and the result is `None`, so the observable result is the same. -/
def scanUntil (stop : Char) : List Char → Option (List Char × List Char)
  | [] => none
  | c :: cs =>
    if c = stop then some ([], cs)
    else
      match scanUntil stop cs with
      | none => none
      | some (tok, rest) => some (c :: tok, rest)

/-- A parsed bibliography entry: citation key (`name`), type tag (`typ`) and
the attribute mapping in insertion order.  The source's four entry classes
are recovered from `typ` via `kindOf`. -/
structure BibloEntry where
  name : String
  typ : String
  attrs : List (String × String)
  deriving DecidableEq, Repr

/-- The entry kinds (the four classes of the source). -/
inductive Kind where
  | generic
  | book
  | article
  | inproceedings
  deriving DecidableEq, Repr

/-- The class selected by `read_entry` from the (stripped) type tag. -/
def kindOf (typ : String) : Kind :=
  if typ = "book" then Kind.book
  else if typ = "article" then Kind.article
  else if typ = "inproceedings" then Kind.inproceedings
  else Kind.generic

/-- `read_entry(f)`: reads a single entry from the stream, returning the
entry and the unconsumed rest of the stream, or `none` on end of stream or
a malformed/truncated entry. -/
def read_entry (cs : List Char) : Option (BibloEntry × List Char) :=
  (findAt cs).bind fun cs1 =>
    (scanUntil '\x7b' cs1).bind fun tc =>
      (scanUntil ',' tc.2).bind fun kc =>
        (scanBody kc.2 1 ReadState.NAME [] "" []).bind fun ar =>
          some (⟨String.mk (pyStripL kc.1), String.mk (pyStripL tc.1), ar.1⟩, ar.2)

/-- `location_has_two_or_three_elements`: the location value has exactly one
or exactly two commas. -/
def location_has_two_or_three_elements (a : String) : Bool :=
  a.data.count ',' == 1 || a.data.count ',' == 2

/-- `is_titlecase` relative to the injected `titlecase` capability `tc`. -/
def is_titlecase (tc : String → String) (a : String) : Bool :=
  tc a == a

/-- The fixed stop-word list of `is_ieee_abrev`. -/
def ieeeStop : List String := ["transactions", "journal", "biomedical", "engineering"]

/-- `is_ieee_abrev(s)` relative to the injected `sub_words` table `subs`:
every whitespace-separated word of `s`, lowercased, must avoid both the
stop-word list and the (lowercased) keys of the table. -/
def is_ieee_abrev (subs : List (String × String)) (s : String) : Bool :=
  (pySplit s).all fun w =>
    !(ieeeStop.contains (pyLower w)) &&
      !((subs.map fun p => pyLower p.1).contains (pyLower w))

/-- `fix_titlecase`: apply the injected `titlecase` capability. -/
def fix_titlecase (tc : String → String) (a : String) : String := tc a

/-- `fix_ieee_abrev(s)`: substitute each word whose lowercase form is a key of
the `new_words` dict (the `sub_words` table extended with lowercased keys),
rejoining with single spaces and stripping the result. -/
def fix_ieee_abrev (subs : List (String × String)) (s : String) : String :=
  let newWords :=
    subs.foldl (fun m p => insertAttr (insertAttr m p.1 p.2) (pyLower p.1) p.2) []
  let res := (pySplit s).foldl (fun r w =>
      match lookupA newWords (pyLower w) with
      | some v => r ++ " " ++ v
      | none => r ++ " " ++ w) ""
  pyStrip res

/-- The per-class `validators` tables: attribute name, paired with the list of
(validator display name, predicate) entries registered for it. -/
def validatorsFor (tc : String → String) (subs : List (String × String)) :
    Kind → List (String × List (String × (String → Bool)))
  | Kind.book =>
      [("location",
        [("Location has form 'City, Country' or 'City, State, Country'",
          location_has_two_or_three_elements)]),
       ("title", [("Is Title Case", is_titlecase tc)])]
  | Kind.article =>
      [("journal", [("specials words are acronyms", is_ieee_abrev subs)])]
  | Kind.inproceedings =>
      [("booktitle", [("Is Title Case", is_titlecase tc)])]
  | Kind.generic => []

/-- `BibloEntry.validate`: the list of failure messages (empty iff valid). -/
def validate (tc : String → String) (subs : List (String × String))
    (e : BibloEntry) : List String :=
  (validatorsFor tc subs (kindOf e.typ)).foldl (fun errs p =>
    match lookupA e.attrs p.1 with
    | none => errs ++ [p.1 ++ " missing"]
    | some v =>
        errs ++ p.2.foldl (fun es q =>
          if q.2 v then es
          else es ++ ["failed to validate " ++ q.1 ++ " on " ++ p.1]) []) []

/-- The per-class `fixers` tables. -/
def fixersFor (tc : String → String) (subs : List (String × String)) :
    Kind → List (String × List (String → String))
  | Kind.book => [("title", [fix_titlecase tc])]
  | Kind.article => [("journal", [fix_ieee_abrev subs])]
  | Kind.inproceedings => [("booktitle", [fix_titlecase tc])]
  | Kind.generic => []

/-- The fixer application inside `BibloEntry.print`: if the attribute has
registered fixers, fold them over the value; otherwise keep it. -/
def applyFixers (tc : String → String) (subs : List (String × String))
    (k : Kind) (attr v : String) : String :=
  match lookupA (fixersFor tc subs k) attr with
  | none => v
  | some fs => fs.foldl (fun t f => f t) v

/-- `BibloEntry.print`: the serialized form
`@typ {name,\n  attr = {fixed value},\n  ...\n}` (returned as a string;
the source prints it). -/
def printEntry (tc : String → String) (subs : List (String × String))
    (e : BibloEntry) : String :=
  (e.attrs.foldl (fun r p =>
      r ++ ",\n  " ++ p.1 ++ " = \x7b" ++
        applyFixers tc subs (kindOf e.typ) p.1 p.2 ++ "\x7d")
    ("@" ++ e.typ ++ " \x7b" ++ e.name)) ++ "\n\x7d"

/-- Fuel-indexed repetition of `read_entry` (the fuel only serves Lean's
termination checker; `read_entry` always consumes at least the leading `@`
on success, so `length + 1` fuel is never exhausted before `none`). -/
def parseAllF : Nat → List Char → List BibloEntry
  | 0, _ => []
  | fuel + 1, cs =>
    match read_entry cs with
    | none => []
    | some (e, rest) => e :: parseAllF fuel rest

/-- The driver's `while entry != None` collection of all entries of a file. -/
def parseAll (cs : List Char) : List BibloEntry := parseAllF (cs.length + 1) cs

/-- Observable events of the report-mode driver loop: `validated n` records a
call to `entry.validate()` for the entry with key `n`, `dupWarning n` the
`WARNING: duplicate entry` message and `checkMsg n errs` the
`Check n for: errs` message. -/
inductive Event where
  | validated (name : String)
  | dupWarning (name : String)
  | checkMsg (name : String) (errors : List String)
  deriving DecidableEq, Repr

/-- Report mode driver loop: emit a duplicate warning when the key was
already recorded; otherwise validate, and on failure emit the check message
and record the key (keys are recorded only when validation fails). -/
def reportFold (tc : String → String) (subs : List (String × String)) :
    List BibloEntry → List String → List Event
  | [], _ => []
  | e :: es, names =>
    if e.name ∈ names then
      Event.dupWarning e.name :: reportFold tc subs es names
    else
      let errs := validate tc subs e
      if errs = [] then
        Event.validated e.name :: reportFold tc subs es names
      else
        Event.validated e.name :: Event.checkMsg e.name errs ::
          reportFold tc subs es (names ++ [e.name])

/-- Report mode on a whole stream. -/
def reportRun (tc : String → String) (subs : List (String × String))
    (cs : List Char) : List Event :=
  reportFold tc subs (parseAll cs) []

/-- Code-point lexicographic comparison (Python's string `<`). -/
def charListLt : List Char → List Char → Bool
  | [], [] => false
  | [], _ :: _ => true
  | _ :: _, [] => false
  | c :: cs, d :: ds =>
      if c.toNat < d.toNat then true
      else if d.toNat < c.toNat then false
      else charListLt cs ds

/-- Stable insertion into a name-sorted list (used to model Python's stable
`sorted(entries, key=lambda a: a.name)`). -/
def insertByName (e : BibloEntry) : List BibloEntry → List BibloEntry
  | [] => [e]
  | x :: xs =>
      if charListLt e.name.data x.name.data then e :: x :: xs
      else x :: insertByName e xs

/-- The sort the fix-mode driver computes (and whose result it discards). -/
def sortByName (l : List BibloEntry) : List BibloEntry :=
  l.foldr insertByName []

/-- Fix mode: collect all entries, compute (and discard) the sort by key,
then print every collected entry. -/
def fixRun (tc : String → String) (subs : List (String × String))
    (cs : List Char) : List String :=
  let entries := parseAll cs
  let _ := sortByName entries
  entries.map (printEntry tc subs)

/-- Modelled from the spec: the injected title-casing capability (the external
`titlecase` package, absent from the repository).  Per the spec it is an
opaque `string -> string` collaborator that produces a title-cased value;
modelled as upper-casing the first letter of every whitespace-separated
word. -/
def specTitlecase (s : String) : String :=
  String.mk (specTitlecaseGo s.data true)
where
  specTitlecaseGo : List Char → Bool → List Char
    | [], _ => []
    | c :: cs, atStart =>
        (if atStart then c.toUpper else c) :: specTitlecaseGo cs c.isWhitespace

/-! ## Well-formed single-entry texts

The spec's input format is `@tag{key, name = {value}, ...}`.  `render`
produces such a text from structured components, and the `wf*` predicates
state the syntactic side conditions under which the text is a well-formed
single entry (tag without an opening brace, key without a comma, attribute
names without structural characters, values with balanced nested braces). -/

/-- Brace balance check for an attribute value, relative depth `d`: `{`
increases the depth, `}` decreases it and must never be taken at relative
depth `0` (that brace would close the value), and the scan must end at
relative depth `0`. -/
def balGo : List Char → Nat → Bool
  | [], d => d == 0
  | c :: cs, d =>
    if c = '\x7b' then balGo cs (d + 1)
    else if c = '\x7d' then decide (0 < d) && balGo cs (d - 1)
    else balGo cs d

/-- The raw shape of one attribute inside an entry body:
`ns ++ "=" ++ pre ++ "{" ++ inner ++ "}"` — name characters, characters
between `=` and the opening brace, and the brace-enclosed value content. -/
structure RawAttr where
  ns : List Char
  pre : List Char
  inner : List Char

/-- The character sequence of one raw attribute. -/
def chunkR (a : RawAttr) : List Char :=
  a.ns ++ '=' :: (a.pre ++ '\x7b' :: (a.inner ++ ['\x7d']))

/-- Comma-separated raw attribute chunks. -/
def chunksR : List RawAttr → List Char
  | [] => []
  | [a] => chunkR a
  | a :: b :: as_ => chunkR a ++ ',' :: chunksR (b :: as_)

/-- The committed attribute name of a raw attribute. -/
def nmR (a : RawAttr) : String := String.mk (pyStripL a.ns)

/-- The committed attribute value of a raw attribute. -/
def vlR (a : RawAttr) : String := String.mk (pyStripL (a.pre ++ a.inner))

/-- A structured attribute list as a raw chunk list (the `render` shape:
no whitespace around `=`). -/
def toRaw (attrs : List (String × String)) : List RawAttr :=
  attrs.map fun p => ⟨p.1.data, [], p.2.data⟩

/-- A well-formed single entry text `@tag{key,n1={v1},...,nk={vk}}`. -/
def render (tag key : String) (attrs : List (String × String)) : List Char :=
  '@' :: (tag.data ++ '\x7b' :: (key.data ++ ',' :: (chunksR (toRaw attrs) ++ ['\x7d'])))

/-- Side conditions on a type tag: no opening brace, already stripped. -/
def wfTag (tag : String) : Prop :=
  (∀ c ∈ tag.data, c ≠ '\x7b') ∧ pyStrip tag = tag

/-- Side conditions on a key: no comma, already stripped. -/
def wfKey (key : String) : Prop :=
  (∀ c ∈ key.data, c ≠ ',') ∧ pyStrip key = key

/-- Characters allowed in an attribute name: not structural for the lexer. -/
def nameChar (c : Char) : Prop :=
  c ≠ '\x7b' ∧ c ≠ '\x7d' ∧ c ≠ '=' ∧ c ≠ ','

/-- Side conditions on an attribute name. -/
def wfName (n : String) : Prop :=
  (∀ c ∈ n.data, nameChar c) ∧ pyStrip n = n

/-- Side conditions on an attribute list: well-formed names, brace-balanced
values, no duplicate names. -/
def wfAttrs (attrs : List (String × String)) : Prop :=
  (∀ p ∈ attrs, wfName p.1 ∧ balGo p.2.data 0 = true) ∧
    (attrs.map Prod.fst).Nodup

/-- Well-formedness of all components of a rendered entry text. -/
def wfEntryText (tag key : String) (attrs : List (String × String)) : Prop :=
  wfTag tag ∧ wfKey key ∧ wfAttrs attrs

/-! ### Depth profiles (for truncation results) -/

/-- `staysPos cs d`: scanning `cs` from depth `d`, the depth (as updated by
`scanBody`) never reaches `0` at any step. -/
def staysPos : List Char → Nat → Bool
  | [], _ => true
  | c :: cs, d =>
    let d' := if c = '\x7b' then d + 1 else if c = '\x7d' then d - 1 else d
    !(d' == 0) && staysPos cs d'

/-- The depth after scanning `cs` from depth `d`. -/
def endDepth : List Char → Nat → Nat
  | [], d => d
  | c :: cs, d =>
      endDepth cs (if c = '\x7b' then d + 1 else if c = '\x7d' then d - 1 else d)

/-- `Starts p l`: `p` is an initial segment of `l`. -/
def Starts (p l : List Char) : Prop := ∃ q, p ++ q = l

/-! ## Basic lemmas on stripping and the small scanners -/

/-- All characters of a list are whitespace. -/
def allWS (l : List Char) : Prop := ∀ c ∈ l, c.isWhitespace = true

theorem stripFront_ws_append (w l : List Char) (hw : allWS w) :
    stripFront (w ++ l) = stripFront l := by
  induction w with
  | nil => rfl
  | cons c cs ih =>
      have hc : c.isWhitespace = true := hw c (by simp)
      simp only [stripFront, List.cons_append, List.dropWhile_cons, hc, if_true]
      exact ih fun x hx => hw x (by simp [hx])

theorem stripFront_all_ws (w : List Char) (hw : allWS w) : stripFront w = [] := by
  have := stripFront_ws_append w [] hw
  simpa using this

theorem stripBack_ws_append (l w : List Char) (hw : allWS w) :
    stripBack (l ++ w) = stripBack l := by
  unfold stripBack
  rw [List.reverse_append]
  have h := stripFront_ws_append w.reverse l.reverse
    (fun c hc => hw c (List.mem_reverse.mp hc))
  unfold stripFront at h
  rw [h]

theorem stripFront_append_cases (l w : List Char) :
    stripFront (l ++ w) = stripFront l ++ w ∨
      (stripFront l = [] ∧ stripFront (l ++ w) = stripFront w) := by
  induction l with
  | nil => exact Or.inr ⟨rfl, rfl⟩
  | cons c cs ih =>
      by_cases hc : c.isWhitespace = true
      · simpa only [stripFront, List.cons_append, List.dropWhile_cons, hc, if_true] using ih
      · left
        simp only [stripFront, List.cons_append, List.dropWhile_cons, hc]
        simp

theorem allWS_stripFront (w : List Char) (hw : allWS w) : allWS (stripFront w) :=
  fun c hc => hw c (List.dropWhile_sublist _ |>.subset hc)

theorem stripBack_all_ws (w : List Char) (hw : allWS w) : stripBack w = [] := by
  unfold stripBack
  have h := stripFront_all_ws w.reverse (fun c hc => hw c (List.mem_reverse.mp hc))
  unfold stripFront at h
  rw [h]
  rfl

theorem pyStripL_append_ws (l w : List Char) (hw : allWS w) :
    pyStripL (l ++ w) = pyStripL l := by
  unfold pyStripL
  rcases stripFront_append_cases l w with h | ⟨h1, h2⟩
  · rw [h, stripBack_ws_append _ _ hw]
  · rw [h2, h1, stripBack_all_ws _ (allWS_stripFront w hw)]
    rfl

theorem pyStripL_ws_append (w l : List Char) (hw : allWS w) :
    pyStripL (w ++ l) = pyStripL l := by
  unfold pyStripL
  rw [stripFront_ws_append w l hw]

theorem pyStripL_ws_wrap (w1 l w2 : List Char) (h1 : allWS w1) (h2 : allWS w2) :
    pyStripL (w1 ++ (l ++ w2)) = pyStripL l := by
  rw [pyStripL_ws_append w1 (l ++ w2) h1, pyStripL_append_ws l w2 h2]

theorem scanUntil_none (stop : Char) (l : List Char) (h : ∀ c ∈ l, c ≠ stop) :
    scanUntil stop l = none := by
  induction l with
  | nil => rfl
  | cons c cs ih =>
      have hc : c ≠ stop := h c (by simp)
      simp only [scanUntil, hc, if_false, ih fun x hx => h x (by simp [hx])]

theorem scanUntil_hit (stop : Char) (l rest : List Char) (h : ∀ c ∈ l, c ≠ stop) :
    scanUntil stop (l ++ stop :: rest) = some (l, rest) := by
  induction l with
  | nil => simp [scanUntil]
  | cons c cs ih =>
      have hc : c ≠ stop := h c (by simp)
      have ih' := ih fun x hx => h x (by simp [hx])
      simp only [List.cons_append, scanUntil, hc, if_false, List.append_eq, ih']

theorem findAt_at (l : List Char) : findAt ('@' :: l) = some l := by
  simp [findAt]

/-! ## Step equations for the body scanner -/

theorem scanBody_zero (cs : List Char) (state : ReadState) (token : List Char)
    (an : String) (attrs : List (String × String)) :
    scanBody cs 0 state token an attrs = some (attrs, cs) := by
  cases cs <;> rfl

theorem scanBody_nil (d : Nat) (state : ReadState) (token : List Char)
    (an : String) (attrs : List (String × String)) :
    scanBody [] (d + 1) state token an attrs = none := rfl

theorem scanBody_cons (c : Char) (cs : List Char) (d : Nat) (state : ReadState)
    (token : List Char) (an : String) (attrs : List (String × String)) :
    scanBody (c :: cs) (d + 1) state token an attrs =
      (if c = '\x7b' then
        scanBody cs (d + 2) state (if 2 < d + 2 then token ++ [c] else token) an attrs
      else if c = '\x7d' then
        if state = ReadState.VALUE ∧ d = 1 then
          scanBody cs d ReadState.NONE [] an
            (insertAttr attrs an (String.mk (pyStripL token)))
        else
          scanBody cs d state (token ++ [c]) an attrs
      else if state = ReadState.NAME ∧ c = '=' then
        scanBody cs (d + 1) ReadState.VALUE [] (String.mk (pyStripL token)) attrs
      else if state = ReadState.NONE ∧ c = ',' then
        scanBody cs (d + 1) ReadState.NAME token an attrs
      else if state ≠ ReadState.NONE then
        scanBody cs (d + 1) state (token ++ [c]) an attrs
      else
        scanBody cs (d + 1) state token an attrs) := rfl

/-- The step equation specialised to depth 1 (an opening brace leaves the
token untouched since the new depth 2 is not above 2). -/
theorem scanBody_cons1 (c : Char) (cs : List Char) (state : ReadState)
    (token : List Char) (an : String) (attrs : List (String × String)) :
    scanBody (c :: cs) 1 state token an attrs =
      (if c = '\x7b' then
        scanBody cs 2 state token an attrs
      else if c = '\x7d' then
        if state = ReadState.VALUE ∧ (0 : Nat) = 1 then
          scanBody cs 0 ReadState.NONE [] an
            (insertAttr attrs an (String.mk (pyStripL token)))
        else
          scanBody cs 0 state (token ++ [c]) an attrs
      else if state = ReadState.NAME ∧ c = '=' then
        scanBody cs 1 ReadState.VALUE [] (String.mk (pyStripL token)) attrs
      else if state = ReadState.NONE ∧ c = ',' then
        scanBody cs 1 ReadState.NAME token an attrs
      else if state ≠ ReadState.NONE then
        scanBody cs 1 state (token ++ [c]) an attrs
      else
        scanBody cs 1 state token an attrs) := rfl

/-- The step equation specialised to depth 2 (an opening brace is kept as
token content; a closing brace in `VALUE` state commits the attribute). -/
theorem scanBody_cons2 (c : Char) (cs : List Char) (state : ReadState)
    (token : List Char) (an : String) (attrs : List (String × String)) :
    scanBody (c :: cs) 2 state token an attrs =
      (if c = '\x7b' then
        scanBody cs 3 state (token ++ [c]) an attrs
      else if c = '\x7d' then
        if state = ReadState.VALUE ∧ (1 : Nat) = 1 then
          scanBody cs 1 ReadState.NONE [] an
            (insertAttr attrs an (String.mk (pyStripL token)))
        else
          scanBody cs 1 state (token ++ [c]) an attrs
      else if state = ReadState.NAME ∧ c = '=' then
        scanBody cs 2 ReadState.VALUE [] (String.mk (pyStripL token)) attrs
      else if state = ReadState.NONE ∧ c = ',' then
        scanBody cs 2 ReadState.NAME token an attrs
      else if state ≠ ReadState.NONE then
        scanBody cs 2 state (token ++ [c]) an attrs
      else
        scanBody cs 2 state token an attrs) := rfl

/-! ## Segment lemmas: how the scanner walks over body pieces -/

/-- Scanning attribute-name characters in `NAME` state at depth 1 appends
them to the token. -/
theorem scanName (ns : List Char) (h : ∀ c ∈ ns, nameChar c) :
    ∀ (tok : List Char) (an : String) (attrs : List (String × String))
      (rest : List Char),
      scanBody (ns ++ rest) 1 ReadState.NAME tok an attrs
        = scanBody rest 1 ReadState.NAME (tok ++ ns) an attrs := by
  induction ns with
  | nil => intro tok an attrs rest; simp
  | cons c cs ih =>
      intro tok an attrs rest
      obtain ⟨h1, h2, h3, h4⟩ := h c (by simp)
      have ih' := ih (fun x hx => h x (by simp [hx])) (tok ++ [c]) an attrs rest
      rw [List.cons_append, scanBody_cons]
      simp only [h1, h2, h3, h4, if_false, if_true, and_false, false_and, and_true,
        reduceCtorEq, ne_eq, not_false_iff, ite_true, ite_false, if_neg, Nat.zero_add]
      rw [ih']
      simp [List.append_assoc]

/-- Scanning non-brace characters in `VALUE` state at depth 1 (between the
`=` and the value's opening brace) appends them to the token. -/
theorem scanPre (pre : List Char) (h : ∀ c ∈ pre, c ≠ '\x7b' ∧ c ≠ '\x7d') :
    ∀ (tok : List Char) (an : String) (attrs : List (String × String))
      (rest : List Char),
      scanBody (pre ++ rest) 1 ReadState.VALUE tok an attrs
        = scanBody rest 1 ReadState.VALUE (tok ++ pre) an attrs := by
  induction pre with
  | nil => intro tok an attrs rest; simp
  | cons c cs ih =>
      intro tok an attrs rest
      obtain ⟨h1, h2⟩ := h c (by simp)
      have ih' := ih (fun x hx => h x (by simp [hx])) (tok ++ [c]) an attrs rest
      rw [List.cons_append, scanBody_cons]
      simp only [h1, h2, if_false, false_and, and_false, reduceCtorEq, ne_eq,
        not_false_iff, ite_true, ite_false, Nat.zero_add]
      rw [ih']
      simp [List.append_assoc]

/-- Scanning a brace-balanced value segment in `VALUE` state at depth
`d + 2` appends every character (inner braces included) and returns to
depth 2. -/
theorem scanVal (inner : List Char) :
    ∀ (d : Nat), balGo inner d = true →
      ∀ (tok : List Char) (an : String) (attrs : List (String × String))
        (rest : List Char),
        scanBody (inner ++ rest) (d + 2) ReadState.VALUE tok an attrs
          = scanBody rest 2 ReadState.VALUE (tok ++ inner) an attrs := by
  induction inner with
  | nil =>
      intro d hbal tok an attrs rest
      have hd : d = 0 := by simpa [balGo] using hbal
      subst hd
      simp
  | cons c cs ih =>
      intro d hbal tok an attrs rest
      by_cases hob : c = '\x7b'
      · subst hob
        have hbal' : balGo cs (d + 1) = true := by simpa [balGo] using hbal
        have ih' := ih (d + 1) hbal' (tok ++ ['\x7b']) an attrs rest
        rw [List.cons_append]
        rw [show d + 2 = (d + 1) + 1 from rfl, scanBody_cons]
        have hlt : 2 < d + 1 + 2 := by omega
        simp only [if_pos rfl, if_pos hlt]
        rw [show d + 1 + 2 = (d + 1) + 2 from rfl, ih']
        simp [List.append_assoc]
      · by_cases hcb : c = '\x7d'
        · subst hcb
          have hd : 0 < d ∧ balGo cs (d - 1) = true := by
            have h' := hbal
            simp [balGo] at h'
            exact h'
          obtain ⟨hdpos, hbal'⟩ := hd
          obtain ⟨e, rfl⟩ : ∃ e, d = e + 1 := ⟨d - 1, by omega⟩
          have ih' := ih e (by simpa using hbal') (tok ++ ['\x7d']) an attrs rest
          rw [List.cons_append]
          rw [show e + 1 + 2 = (e + 2) + 1 from rfl, scanBody_cons]
          have hne : ¬(ReadState.VALUE = ReadState.VALUE ∧ e + 2 = 1) := by
            rintro ⟨-, h⟩; omega
          simp only [if_neg (by decide : ('\x7d' : Char) ≠ '\x7b'), if_pos rfl,
            if_neg hne]
          rw [show e + 2 = e + 2 from rfl, ih']
          simp [List.append_assoc]
        · have hbal' : balGo cs d = true := by
            simpa [balGo, hob, hcb] using hbal
          have ih' := ih d hbal' (tok ++ [c]) an attrs rest
          rw [List.cons_append]
          rw [show d + 2 = (d + 1) + 1 from rfl, scanBody_cons]
          simp only [hob, hcb, if_false, false_and, and_false, reduceCtorEq, ne_eq,
            not_false_iff, ite_true, ite_false]
          rw [show d + 1 + 1 = d + 2 from by omega, ih']
          simp [List.append_assoc]

/-- The well-formedness conditions a raw attribute chunk needs for the
scanner to commit it: non-structural name characters, no braces before the
value's opening brace, balanced value content. -/
def wfRaw (a : RawAttr) : Prop :=
  (∀ c ∈ a.ns, nameChar c) ∧ (∀ c ∈ a.pre, c ≠ '\x7b' ∧ c ≠ '\x7d') ∧
    balGo a.inner 0 = true

/-- Folding raw attribute commits over an accumulator (the dict updates the
scanner performs, in order). -/
def foldIns (attrs : List (String × String)) (as_ : List RawAttr) :
    List (String × String) :=
  as_.foldl (fun acc a => insertAttr acc (nmR a) (vlR a)) attrs

/-- Scanning one raw attribute chunk from `NAME` state at depth 1 commits
its (stripped) name and value and leaves the scanner in `NONE` state. -/
theorem scanAttr (a : RawAttr) (h : wfRaw a) (an : String)
    (attrs : List (String × String)) (rest : List Char) :
    scanBody (chunkR a ++ rest) 1 ReadState.NAME [] an attrs
      = scanBody rest 1 ReadState.NONE [] (nmR a)
          (insertAttr attrs (nmR a) (vlR a)) := by
  obtain ⟨hns, hpre, hbal⟩ := h
  have hshape : chunkR a ++ rest
      = a.ns ++ '=' :: (a.pre ++ '\x7b' :: (a.inner ++ '\x7d' :: rest)) := by
    simp [chunkR, List.append_assoc]
  rw [hshape]
  rw [scanName a.ns hns [] an attrs _, List.nil_append]
  rw [scanBody_cons1]
  rw [if_neg (by decide : ¬(('=' : Char) = '\x7b'))]
  rw [if_neg (by decide : ¬(('=' : Char) = '\x7d'))]
  rw [if_pos (⟨rfl, rfl⟩ : ReadState.NAME = ReadState.NAME ∧ ('=' : Char) = '=')]
  rw [scanPre a.pre hpre [] _ attrs _, List.nil_append]
  rw [scanBody_cons1]
  rw [if_pos (rfl : ('\x7b' : Char) = '\x7b')]
  have hv := scanVal a.inner 0 hbal a.pre (String.mk (pyStripL a.ns)) attrs
    ('\x7d' :: rest)
  rw [Nat.zero_add] at hv
  rw [hv]
  rw [scanBody_cons2]
  rw [if_neg (by decide : ¬(('\x7d' : Char) = '\x7b'))]
  rw [if_pos (rfl : ('\x7d' : Char) = '\x7d')]
  rw [if_pos (⟨rfl, rfl⟩ : ReadState.VALUE = ReadState.VALUE ∧ (1 : Nat) = 1)]
  rfl

/-- The entry's closing brace at depth 1 ends the scan successfully,
whatever the lexer state (a commit needs the depth to return to 1, and here
it returns to 0). -/
theorem scanClose (st : ReadState) (tok : List Char) (an : String)
    (attrs : List (String × String)) (rest : List Char) :
    scanBody ('\x7d' :: rest) 1 st tok an attrs = some (attrs, rest) := by
  rw [scanBody_cons]
  have hne : ¬(st = ReadState.VALUE ∧ (0 : Nat) = 1) := by rintro ⟨-, hh⟩; omega
  simp only [if_neg (by decide : ('\x7d' : Char) ≠ '\x7b'),
    if_pos (rfl : ('\x7d' : Char) = '\x7d'), if_neg hne]
  exact scanBody_zero _ _ _ _ _

/-- A newline at depth 1 never touches the attributes: it is appended to the
token (in `NAME`/`VALUE` state) or discarded (in `NONE` state). -/
theorem scanNL (st : ReadState) (tok : List Char) (an : String)
    (attrs : List (String × String)) (rest : List Char) :
    ∃ tok2, scanBody ('\n' :: rest) 1 st tok an attrs
      = scanBody rest 1 st tok2 an attrs := by
  rw [scanBody_cons]
  cases st with
  | NONE => exact ⟨tok, by simp⟩
  | NAME => exact ⟨tok ++ ['\n'], by simp⟩
  | VALUE => exact ⟨tok ++ ['\n'], by simp⟩

/-- Scanning a comma-separated sequence of raw attribute chunks commits them
all in order, leaving some token/state for the terminator. -/
theorem scanChunks (as_ : List RawAttr) (h : ∀ a ∈ as_, wfRaw a) :
    ∀ (an : String) (attrs : List (String × String)) (tail : List Char),
      ∃ st tok an2,
        scanBody (chunksR as_ ++ tail) 1 ReadState.NAME [] an attrs
          = scanBody tail 1 st tok an2 (foldIns attrs as_) := by
  induction as_ with
  | nil =>
      intro an attrs tail
      exact ⟨ReadState.NAME, [], an, by simp [chunksR, foldIns]⟩
  | cons a as ih =>
      intro an attrs tail
      cases as with
      | nil =>
          refine ⟨ReadState.NONE, [], nmR a, ?_⟩
          have hs := scanAttr a (h a (by simp)) an attrs tail
          simpa [chunksR, foldIns] using hs
      | cons b bs =>
          have hshape : chunksR (a :: b :: bs) ++ tail
              = chunkR a ++ ',' :: (chunksR (b :: bs) ++ tail) := by
            simp [chunksR, List.append_assoc]
          have hs := scanAttr a (h a (by simp)) an attrs
            (',' :: (chunksR (b :: bs) ++ tail))
          have hcomma : scanBody (',' :: (chunksR (b :: bs) ++ tail)) 1
              ReadState.NONE [] (nmR a) (insertAttr attrs (nmR a) (vlR a))
              = scanBody (chunksR (b :: bs) ++ tail) 1 ReadState.NAME []
                  (nmR a) (insertAttr attrs (nmR a) (vlR a)) := by
            rw [scanBody_cons]
            simp
          obtain ⟨st, tok, an2, hrec⟩ :=
            ih (fun x hx => h x (by simp [hx])) (nmR a)
              (insertAttr attrs (nmR a) (vlR a)) tail
          refine ⟨st, tok, an2, ?_⟩
          rw [hshape, hs, hcomma, hrec]
          rfl

/-- Scanning the chunks followed by the entry's closing brace returns all
committed attributes and the rest of the stream. -/
theorem scanBodyFull (as_ : List RawAttr) (h : ∀ a ∈ as_, wfRaw a) (an : String)
    (attrs : List (String × String)) (rest : List Char) :
    scanBody (chunksR as_ ++ '\x7d' :: rest) 1 ReadState.NAME [] an attrs
      = some (foldIns attrs as_, rest) := by
  obtain ⟨st, tok, an2, hs⟩ := scanChunks as_ h an attrs ('\x7d' :: rest)
  rw [hs, scanClose]

/-- Inserting an absent key appends the pair at the end. -/
theorem insertAttr_absent (l : List (String × String)) (k v : String)
    (h : k ∉ l.map Prod.fst) : insertAttr l k v = l ++ [(k, v)] := by
  induction l with
  | nil => rfl
  | cons p ps ih =>
      have h1 : ¬(p.1 = k) := by
        intro hh
        exact h (by simp [hh])
      have h2 : k ∉ ps.map Prod.fst := by
        intro hh
        exact h (by simp [hh])
      simp [insertAttr, h1, ih h2]

/-- With pairwise-distinct fresh names, the committed dict is the attribute
list in order. -/
theorem foldIns_eq (as_ : List RawAttr) :
    ∀ (acc : List (String × String)),
      (as_.map nmR).Nodup → (∀ a ∈ as_, nmR a ∉ acc.map Prod.fst) →
      foldIns acc as_ = acc ++ as_.map fun a => (nmR a, vlR a) := by
  induction as_ with
  | nil => intro acc _ _; simp [foldIns]
  | cons a as ih =>
      intro acc hnd hac
      have hstep : insertAttr acc (nmR a) (vlR a) = acc ++ [(nmR a, vlR a)] :=
        insertAttr_absent _ _ _ (hac a (by simp))
      have hnd' : (as.map nmR).Nodup := (List.nodup_cons.mp (by simpa using hnd)).2
      have hha : nmR a ∉ as.map nmR := (List.nodup_cons.mp (by simpa using hnd)).1
      have hac' : ∀ b ∈ as, nmR b ∉ (acc ++ [(nmR a, vlR a)]).map Prod.fst := by
        intro b hb
        simp only [List.map_append, List.mem_append, List.map_cons, List.map_nil,
          List.mem_singleton, not_or]
        refine ⟨hac b (by simp [hb]), ?_⟩
        intro hh
        exact hha (by rw [← hh]; exact List.mem_map_of_mem nmR hb)
      have hfold : foldIns acc (a :: as)
          = foldIns (acc ++ [(nmR a, vlR a)]) as := by
        simp [foldIns, hstep]
      rw [hfold, ih _ hnd' hac']
      simp

/-- The components of a well-formed entry text give well-formed raw chunks. -/
theorem toRaw_wf (attrs : List (String × String))
    (h : ∀ p ∈ attrs, wfName p.1 ∧ balGo p.2.data 0 = true) :
    ∀ a ∈ toRaw attrs, wfRaw a := by
  intro a ha
  obtain ⟨p, hp, rfl⟩ := List.mem_map.mp ha
  exact ⟨(h p hp).1.1, by simp, (h p hp).2⟩

/-- Parse correctness on well-formed entry texts: `read_entry` consumes the
whole rendered text and returns exactly the given key, tag and attributes
(each value stripped of surrounding whitespace, deeper content verbatim). -/
theorem read_render (tag key : String) (attrs : List (String × String))
    (h : wfEntryText tag key attrs) :
    read_entry (render tag key attrs)
      = some (⟨key, tag, attrs.map fun p => (p.1, pyStrip p.2)⟩, []) := by
  obtain ⟨⟨htag, htags⟩, ⟨hkey, hkeys⟩, hwf, hnd⟩ := h
  unfold read_entry render
  rw [findAt_at]
  simp only [Option.some_bind]
  rw [scanUntil_hit '\x7b' tag.data _ htag]
  simp only [Option.some_bind]
  rw [scanUntil_hit ',' key.data _ hkey]
  simp only [Option.some_bind]
  rw [scanBodyFull (toRaw attrs) (toRaw_wf attrs hwf) "" []]
  simp only [Option.some_bind]
  have hmapnm : (toRaw attrs).map nmR = attrs.map Prod.fst := by
    unfold toRaw
    rw [List.map_map]
    refine List.map_congr_left ?_
    intro p hp
    exact (hwf p hp).1.2
  have hfold : foldIns [] (toRaw attrs)
      = attrs.map fun p => (p.1, pyStrip p.2) := by
    rw [foldIns_eq (toRaw attrs) [] (by rw [hmapnm]; exact hnd) (by simp)]
    unfold toRaw
    rw [List.nil_append, List.map_map]
    refine List.map_congr_left ?_
    intro p hp
    have hn : nmR ⟨p.1.data, [], p.2.data⟩ = p.1 := (hwf p hp).1.2
    have hv : vlR ⟨p.1.data, [], p.2.data⟩ = pyStrip p.2 := by
      simp [vlR, pyStrip]
    simp [Function.comp, hn, hv]
  rw [hfold]
  rw [show String.mk (pyStripL key.data) = key from hkeys]
  rw [show String.mk (pyStripL tag.data) = tag from htags]

/-! ## Depth profiles and truncated inputs -/

theorem band_true {a b : Bool} (h : (a && b) = true) : a = true ∧ b = true := by
  simp only [Bool.and_eq_true] at h
  exact h

theorem staysPos_open (cs : List Char) (d : Nat) :
    staysPos ('\x7b' :: cs) d = true ↔ staysPos cs (d + 1) = true := by
  simp [staysPos]

theorem staysPos_close (cs : List Char) (d : Nat) :
    staysPos ('\x7d' :: cs) d = true ↔ d - 1 ≠ 0 ∧ staysPos cs (d - 1) = true := by
  simp [staysPos, show ('\x7d' : Char) ≠ '\x7b' from by decide]

theorem staysPos_other (c : Char) (cs : List Char) (d : Nat)
    (h1 : c ≠ '\x7b') (h2 : c ≠ '\x7d') :
    staysPos (c :: cs) d = true ↔ d ≠ 0 ∧ staysPos cs d = true := by
  simp [staysPos, h1, h2]

theorem endDepth_open (cs : List Char) (d : Nat) :
    endDepth ('\x7b' :: cs) d = endDepth cs (d + 1) := by
  simp [endDepth]

theorem endDepth_close (cs : List Char) (d : Nat) :
    endDepth ('\x7d' :: cs) d = endDepth cs (d - 1) := by
  simp [endDepth, show ('\x7d' : Char) ≠ '\x7b' from by decide]

theorem endDepth_other (c : Char) (cs : List Char) (d : Nat)
    (h1 : c ≠ '\x7b') (h2 : c ≠ '\x7d') :
    endDepth (c :: cs) d = endDepth cs d := by
  simp [endDepth, h1, h2]

theorem staysPos_append (xs : List Char) :
    ∀ (ys : List Char) (d : Nat),
      staysPos (xs ++ ys) d = (staysPos xs d && staysPos ys (endDepth xs d)) := by
  induction xs with
  | nil => intro ys d; simp [staysPos, endDepth]
  | cons c cs ih =>
      intro ys d
      simp only [List.cons_append, staysPos, endDepth, List.append_eq, ih,
        Bool.and_assoc]

theorem endDepth_append (xs : List Char) :
    ∀ (ys : List Char) (d : Nat), endDepth (xs ++ ys) d = endDepth ys (endDepth xs d) := by
  induction xs with
  | nil => intro ys d; simp [endDepth]
  | cons c cs ih =>
      intro ys d
      simp only [List.cons_append, endDepth, List.append_eq, ih]

/-- If the depth never returns to zero along the remaining stream, the body
scanner runs out of input and reports failure. -/
theorem scanBody_none_of_staysPos (cs : List Char) :
    ∀ (d : Nat) (st : ReadState) (tok : List Char) (an : String)
      (attrs : List (String × String)), d ≠ 0 → staysPos cs d = true →
      scanBody cs d st tok an attrs = none := by
  induction cs with
  | nil =>
      intro d st tok an attrs hd _
      obtain ⟨e, rfl⟩ : ∃ e, d = e + 1 := ⟨d - 1, by omega⟩
      exact scanBody_nil e st tok an attrs
  | cons c cs ih =>
      intro d st tok an attrs hd hsp
      obtain ⟨e, rfl⟩ : ∃ e, d = e + 1 := ⟨d - 1, by omega⟩
      rw [scanBody_cons]
      by_cases hob : c = '\x7b'
      · subst hob
        have hsp' : staysPos cs (e + 2) = true := (staysPos_open cs (e + 1)).mp hsp
        rw [if_pos rfl]
        exact ih (e + 2) st _ an attrs (by omega) hsp'
      · by_cases hcb : c = '\x7d'
        · subst hcb
          have hsp' : e ≠ 0 ∧ staysPos cs e = true := by
            have h0 := (staysPos_close cs (e + 1)).mp hsp
            simpa using h0
          rw [if_neg (by decide : ¬(('\x7d' : Char) = '\x7b')), if_pos rfl]
          by_cases hcm : st = ReadState.VALUE ∧ e = 1
          · rw [if_pos hcm]
            exact ih e ReadState.NONE [] an _ hsp'.1 hsp'.2
          · rw [if_neg hcm]
            exact ih e st _ an attrs hsp'.1 hsp'.2
        · have hsp' : staysPos cs (e + 1) = true :=
            ((staysPos_other c cs (e + 1) hob hcb).mp hsp).2
          rw [if_neg hob, if_neg hcb]
          by_cases h3 : st = ReadState.NAME ∧ c = '='
          · rw [if_pos h3]; exact ih (e + 1) ReadState.VALUE [] _ attrs (by omega) hsp'
          · rw [if_neg h3]
            by_cases h4 : st = ReadState.NONE ∧ c = ','
            · rw [if_pos h4]; exact ih (e + 1) ReadState.NAME tok an attrs (by omega) hsp'
            · rw [if_neg h4]
              by_cases h5 : st ≠ ReadState.NONE
              · rw [if_pos h5]; exact ih (e + 1) st _ an attrs (by omega) hsp'
              · rw [if_neg h5]; exact ih (e + 1) st tok an attrs (by omega) hsp'

/-- While scanning a brace-balanced segment from depth `D` (strictly above
the segment's relative starting depth `d`), the depth stays positive and
ends at `D - d`. -/
theorem bal_stays (inner : List Char) :
    ∀ (d D : Nat), balGo inner d = true → d < D →
      staysPos inner D = true ∧ endDepth inner D = D - d := by
  induction inner with
  | nil =>
      intro d D h hd
      have hd0 : d = 0 := by simpa [balGo] using h
      subst hd0
      simp [staysPos, endDepth]
  | cons c cs ih =>
      intro d D h hd
      by_cases hob : c = '\x7b'
      · subst hob
        have h' : balGo cs (d + 1) = true := by simpa [balGo] using h
        obtain ⟨hs, he⟩ := ih (d + 1) (D + 1) h' (by omega)
        refine ⟨(staysPos_open cs D).mpr hs, ?_⟩
        rw [endDepth_open, he]
        omega
      · by_cases hcb : c = '\x7d'
        · subst hcb
          have h' : 0 < d ∧ balGo cs (d - 1) = true := by
            have h2 := h
            simp [balGo] at h2
            exact h2
          obtain ⟨hdpos, hbal'⟩ := h'
          obtain ⟨hs, he⟩ := ih (d - 1) (D - 1) hbal' (by omega)
          refine ⟨(staysPos_close cs D).mpr ⟨by omega, hs⟩, ?_⟩
          rw [endDepth_close, he]
          omega
        · have h' : balGo cs d = true := by simpa [balGo, hob, hcb] using h
          obtain ⟨hs, he⟩ := ih d D h' hd
          refine ⟨(staysPos_other c cs D hob hcb).mpr ⟨by omega, hs⟩, ?_⟩
          rw [endDepth_other c cs D hob hcb, he]

/-- Brace-free segments keep the depth unchanged and positive. -/
theorem noBrace_depth (l : List Char) (h : ∀ c ∈ l, c ≠ '\x7b' ∧ c ≠ '\x7d') :
    ∀ d, d ≠ 0 → staysPos l d = true ∧ endDepth l d = d := by
  induction l with
  | nil => intro d _; simp [staysPos, endDepth]
  | cons c cs ih =>
      intro d hd
      obtain ⟨h1, h2⟩ := h c (by simp)
      obtain ⟨hs, he⟩ := ih (fun x hx => h x (by simp [hx])) d hd
      refine ⟨(staysPos_other c cs d h1 h2).mpr ⟨hd, hs⟩, ?_⟩
      rw [endDepth_other c cs d h1 h2, he]

/-- One well-formed attribute chunk keeps the scan depth positive and
returns it to 1. -/
theorem chunk_depth (a : RawAttr) (h : wfRaw a) :
    staysPos (chunkR a) 1 = true ∧ endDepth (chunkR a) 1 = 1 := by
  obtain ⟨hns, hpre, hbal⟩ := h
  have hns' : ∀ c ∈ a.ns, c ≠ '\x7b' ∧ c ≠ '\x7d' :=
    fun c hc => ⟨(hns c hc).1, (hns c hc).2.1⟩
  obtain ⟨hnsS, hnsE⟩ := noBrace_depth a.ns hns' 1 (by omega)
  obtain ⟨hpreS, hpreE⟩ := noBrace_depth a.pre hpre 1 (by omega)
  obtain ⟨hinS, hinE⟩ := bal_stays a.inner 0 2 hbal (by omega)
  have hinE' : endDepth a.inner 2 = 2 := by rw [hinE]
  have hcl : staysPos ('\x7d' :: ([] : List Char)) 2 = true :=
    (staysPos_close [] 2).mpr ⟨by omega, rfl⟩
  have hclE : endDepth ('\x7d' :: ([] : List Char)) 2 = 1 := by
    rw [endDepth_close]
    rfl
  have hbrace : staysPos ('\x7b' :: (a.inner ++ ['\x7d'])) 1 = true ∧
      endDepth ('\x7b' :: (a.inner ++ ['\x7d'])) 1 = 1 := by
    constructor
    · refine (staysPos_open _ 1).mpr ?_
      rw [staysPos_append, hinS, hinE']
      simpa using hcl
    · rw [endDepth_open, endDepth_append, hinE']
      exact hclE
  have htail : staysPos ('=' :: (a.pre ++ '\x7b' :: (a.inner ++ ['\x7d']))) 1 = true ∧
      endDepth ('=' :: (a.pre ++ '\x7b' :: (a.inner ++ ['\x7d']))) 1 = 1 := by
    constructor
    · refine (staysPos_other '=' _ 1 (by decide) (by decide)).mpr ⟨by omega, ?_⟩
      rw [staysPos_append, hpreS, hpreE]
      simpa using hbrace.1
    · rw [endDepth_other '=' _ 1 (by decide) (by decide), endDepth_append, hpreE]
      exact hbrace.2
  constructor
  · rw [show chunkR a = a.ns ++ '=' :: (a.pre ++ '\x7b' :: (a.inner ++ ['\x7d'])) from rfl]
    rw [staysPos_append, hnsS, hnsE]
    simpa using htail.1
  · rw [show chunkR a = a.ns ++ '=' :: (a.pre ++ '\x7b' :: (a.inner ++ ['\x7d'])) from rfl]
    rw [endDepth_append, hnsE]
    exact htail.2

/-- A well-formed body (the comma-separated chunks) keeps the depth positive
and ends back at depth 1: only the entry's final closing brace closes it. -/
theorem chunks_depth (as_ : List RawAttr) (h : ∀ a ∈ as_, wfRaw a) :
    staysPos (chunksR as_) 1 = true ∧ endDepth (chunksR as_) 1 = 1 := by
  induction as_ with
  | nil => simp [chunksR, staysPos, endDepth]
  | cons a as ih =>
      cases as with
      | nil => simpa [chunksR] using chunk_depth a (h a (by simp))
      | cons b bs =>
          obtain ⟨haS, haE⟩ := chunk_depth a (h a (by simp))
          obtain ⟨hrS, hrE⟩ := ih (fun x hx => h x (by simp [hx]))
          have hshape : chunksR (a :: b :: bs) = chunkR a ++ ',' :: chunksR (b :: bs) := rfl
          constructor
          · rw [hshape, staysPos_append, haS, haE]
            have hcm := (staysPos_other ',' (chunksR (b :: bs)) 1
              (by decide) (by decide)).mpr ⟨by omega, hrS⟩
            simpa using hcm
          · rw [hshape, endDepth_append, haE,
              endDepth_other ',' (chunksR (b :: bs)) 1 (by decide) (by decide)]
            exact hrE

theorem staysPos_starts (p l : List Char) (d : Nat) (hs : Starts p l)
    (h : staysPos l d = true) : staysPos p d = true := by
  obtain ⟨q, rfl⟩ := hs
  rw [staysPos_append] at h
  exact (band_true h).1

theorem starts_subset (p l : List Char) (hs : Starts p l) : ∀ c ∈ p, c ∈ l := by
  obtain ⟨q, rfl⟩ := hs
  intro c hc
  exact List.mem_append_left q hc

/-- Truncation: every proper initial segment of a well-formed entry text
parses to `none` — the stream runs out inside the tag, inside the key, or
inside the body while the depth is still positive. -/
theorem read_entry_truncated (tag key : String) (attrs : List (String × String))
    (h : wfEntryText tag key attrs) (p q : List Char)
    (hpq : p ++ q = render tag key attrs) (hq : q ≠ []) :
    read_entry p = none := by
  obtain ⟨⟨htag, htags⟩, ⟨hkey, hkeys⟩, hwf, hnd⟩ := h
  cases p with
  | nil => rfl
  | cons c p1 =>
      unfold render at hpq
      rw [List.cons_append] at hpq
      injection hpq with hc h2
      subst hc
      unfold read_entry
      rw [findAt_at]
      simp only [Option.some_bind]
      rcases List.append_eq_append_iff.mp h2 with ⟨a1, ha1, _⟩ | ⟨c1, hc1, hc2⟩
      · rw [scanUntil_none '\x7b' p1
          (fun x hx => htag x (ha1 ▸ List.mem_append_left a1 hx))]
        rfl
      · cases c1 with
        | nil =>
            rw [List.append_nil] at hc1
            subst hc1
            rw [scanUntil_none '\x7b' tag.data htag]
            rfl
        | cons c0 c2 =>
            rw [List.cons_append] at hc2
            injection hc2 with hc0 hc2'
            subst hc1
            rw [← hc0, scanUntil_hit '\x7b' tag.data c2 htag]
            simp only [Option.some_bind]
            rcases List.append_eq_append_iff.mp hc2'.symm
              with ⟨a2, ha2, _⟩ | ⟨c3, hc3, hc4⟩
            · rw [scanUntil_none ',' c2
                (fun x hx => hkey x (ha2 ▸ List.mem_append_left a2 hx))]
              rfl
            · cases c3 with
              | nil =>
                  rw [List.append_nil] at hc3
                  subst hc3
                  rw [scanUntil_none ',' key.data hkey]
                  rfl
              | cons c4 c5 =>
                  rw [List.cons_append] at hc4
                  injection hc4 with hc4' hc5'
                  subst hc3
                  rw [← hc4', scanUntil_hit ',' key.data c5 hkey]
                  simp only [Option.some_bind]
                  have hbody := chunks_depth (toRaw attrs) (toRaw_wf attrs hwf)
                  rcases List.append_eq_append_iff.mp hc5'.symm
                    with ⟨a3, ha3, _⟩ | ⟨c6, hc6, hc7⟩
                  · rw [scanBody_none_of_staysPos c5 1 ReadState.NAME [] "" []
                      (by omega) (staysPos_starts c5 _ 1 ⟨a3, ha3.symm⟩ hbody.1)]
                    rfl
                  · cases c6 with
                    | nil =>
                        rw [List.append_nil] at hc6
                        subst hc6
                        rw [scanBody_none_of_staysPos _ 1 ReadState.NAME [] "" []
                          (by omega) hbody.1]
                        rfl
                    | cons c7 c8 =>
                        exfalso
                        rw [List.cons_append] at hc7
                        injection hc7 with _ hc8
                        have : c8 = [] ∧ q = [] := by
                          constructor
                          · cases c8 with
                            | nil => rfl
                            | cons x xs => simp at hc8
                          · cases c8 with
                            | nil => simpa using hc8
                            | cons x xs => simp at hc8
                        exact hq this.2

/-! ## Reparsing a printed entry -/

/-- The raw chunk shape of one attribute as `BibloEntry.print` lays it out:
`"\n  " ++ name ++ " = {" ++ fixed value ++ "}"` (after the separating
comma). -/
def printRaw (tc : String → String) (subs : List (String × String)) (kd : Kind)
    (p : String × String) : RawAttr :=
  ⟨'\n' :: ' ' :: ' ' :: (p.1.data ++ [' ']), [' '],
    (applyFixers tc subs kd p.1 p.2).data⟩

/-- The characters `BibloEntry.print` emits for one attribute. -/
def chunkData (tc : String → String) (subs : List (String × String)) (kd : Kind)
    (p : String × String) : List Char :=
  ',' :: '\n' :: ' ' :: ' ' ::
    (p.1.data ++ ' ' :: '=' :: ' ' :: '\x7b' ::
      ((applyFixers tc subs kd p.1 p.2).data ++ ['\x7d']))

/-- The characters `BibloEntry.print` emits for an attribute list. -/
def flatChunks (tc : String → String) (subs : List (String × String)) (kd : Kind) :
    List (String × String) → List Char
  | [] => []
  | p :: ps => chunkData tc subs kd p ++ flatChunks tc subs kd ps

theorem printFold_data (tc : String → String) (subs : List (String × String))
    (kd : Kind) (l : List (String × String)) :
    ∀ (r : String),
      (l.foldl (fun r p =>
        r ++ ",\n  " ++ p.1 ++ " = \x7b" ++ applyFixers tc subs kd p.1 p.2 ++ "\x7d")
        r).data = r.data ++ flatChunks tc subs kd l := by
  induction l with
  | nil => intro r; simp [flatChunks]
  | cons p ps ih =>
      intro r
      rw [List.foldl_cons, ih]
      simp [chunkData, flatChunks, String.data_append, List.append_assoc]

theorem chunkData_eq (tc : String → String) (subs : List (String × String))
    (kd : Kind) (p : String × String) :
    chunkData tc subs kd p = ',' :: chunkR (printRaw tc subs kd p) := by
  simp [chunkData, chunkR, printRaw, List.append_assoc]

theorem flat_eq_chunksR (tc : String → String) (subs : List (String × String))
    (kd : Kind) :
    ∀ (l : List (String × String)), l ≠ [] →
      flatChunks tc subs kd l = ',' :: chunksR (l.map (printRaw tc subs kd)) := by
  intro l
  induction l with
  | nil => intro h; exact absurd rfl h
  | cons p ps ih =>
      intro _
      cases ps with
      | nil => simp [flatChunks, chunkData_eq, chunksR]
      | cons q qs =>
          rw [show flatChunks tc subs kd (p :: q :: qs)
              = chunkData tc subs kd p ++ flatChunks tc subs kd (q :: qs) from rfl]
          rw [ih (by simp), chunkData_eq]
          rw [show (p :: q :: qs).map (printRaw tc subs kd)
              = printRaw tc subs kd p :: (q :: qs).map (printRaw tc subs kd) from rfl]
          rw [show chunksR (printRaw tc subs kd p :: (q :: qs).map (printRaw tc subs kd))
              = chunkR (printRaw tc subs kd p)
                  ++ ',' :: chunksR ((q :: qs).map (printRaw tc subs kd)) from rfl]
          simp [List.append_assoc]

/-- The exact character stream `BibloEntry.print` produces for an entry with
at least one attribute, grouped the way `read_entry` consumes it. -/
theorem printEntry_data (tc : String → String) (subs : List (String × String))
    (name typ : String) (attrsE : List (String × String)) (hne : attrsE ≠ []) :
    (printEntry tc subs ⟨name, typ, attrsE⟩).data
      = '@' :: ((typ.data ++ [' ']) ++ '\x7b' ::
          (name.data ++ ',' ::
            (chunksR (attrsE.map (printRaw tc subs (kindOf typ)))
              ++ '\n' :: '\x7d' :: []))) := by
  unfold printEntry
  rw [String.data_append, printFold_data]
  rw [flat_eq_chunksR tc subs (kindOf typ) attrsE hne]
  simp [String.data_append, List.append_assoc]

/-- Reparse correctness: printing the entry parsed from a well-formed text
and parsing the result again succeeds, and yields the same key, the same tag
and the same attribute names in order, with each value replaced by its fixed
form (hypotheses: the fixed values are brace-balanced and stripped). -/
theorem read_print (tc : String → String) (subs : List (String × String))
    (tag key : String) (attrs : List (String × String))
    (h : wfEntryText tag key attrs) (hne : attrs ≠ [])
    (hfix : ∀ p ∈ attrs,
      balGo (applyFixers tc subs (kindOf tag) p.1 (pyStrip p.2)).data 0 = true ∧
        pyStrip (applyFixers tc subs (kindOf tag) p.1 (pyStrip p.2))
          = applyFixers tc subs (kindOf tag) p.1 (pyStrip p.2)) :
    read_entry (printEntry tc subs
        ⟨key, tag, attrs.map fun p => (p.1, pyStrip p.2)⟩).data
      = some (⟨key, tag,
          attrs.map fun p => (p.1, applyFixers tc subs (kindOf tag) p.1 (pyStrip p.2))⟩,
        []) := by
  obtain ⟨⟨htag, htags⟩, ⟨hkey, hkeys⟩, hwf, hnd⟩ := h
  have hneE : attrs.map (fun p => (p.1, pyStrip p.2)) ≠ [] := by
    intro hh
    exact hne (List.map_eq_nil_iff.mp hh)
  rw [printEntry_data tc subs key tag _ hneE]
  unfold read_entry
  rw [findAt_at]
  simp only [Option.some_bind]
  have htagsp : ∀ c ∈ tag.data ++ [' '], c ≠ '\x7b' := by
    intro c hc
    rcases List.mem_append.mp hc with hc1 | hc2
    · exact htag c hc1
    · simp at hc2
      subst hc2
      decide
  rw [scanUntil_hit '\x7b' (tag.data ++ [' ']) _ htagsp]
  simp only [Option.some_bind]
  rw [scanUntil_hit ',' key.data _ hkey]
  simp only [Option.some_bind]
  set rawList := (attrs.map fun p => (p.1, pyStrip p.2)).map
    (printRaw tc subs (kindOf tag)) with hraw
  have hwfRaw : ∀ a ∈ rawList, wfRaw a := by
    intro a ha
    rw [hraw] at ha
    obtain ⟨q, hq, rfl⟩ := List.mem_map.mp ha
    obtain ⟨p, hp, rfl⟩ := List.mem_map.mp hq
    refine ⟨?_, ?_, ?_⟩
    · intro c hc
      simp only [printRaw] at hc
      rw [show ('\n' :: ' ' :: ' ' :: (p.1.data ++ [' ']))
          = (['\n', ' ', ' '] ++ p.1.data) ++ [' '] from by simp] at hc
      rcases List.mem_append.mp hc with h1 | h2
      · rcases List.mem_append.mp h1 with h3 | h4
        · have hc3 : c = '\n' ∨ c = ' ' ∨ c = ' ' := by simpa using h3
          rcases hc3 with rfl | rfl | rfl
          · exact ⟨by decide, by decide, by decide, by decide⟩
          · exact ⟨by decide, by decide, by decide, by decide⟩
          · exact ⟨by decide, by decide, by decide, by decide⟩
        · exact (hwf p hp).1.1 c h4
      · have hc2 : c = ' ' := by simpa using h2
        subst hc2
        exact ⟨by decide, by decide, by decide, by decide⟩
    · intro c hc
      simp only [printRaw] at hc
      have hc2 : c = ' ' := by simpa using hc
      subst hc2
      exact ⟨by decide, by decide⟩
    · exact (hfix p hp).1
  obtain ⟨st, tok, an2, hsc⟩ := scanChunks rawList hwfRaw "" [] ('\n' :: '\x7d' :: [])
  rw [hsc]
  obtain ⟨tok2, hnl⟩ := scanNL st tok an2 (foldIns [] rawList) ('\x7d' :: [])
  rw [hnl, scanClose]
  simp only [Option.some_bind]
  have hnm : ∀ p ∈ attrs, nmR (printRaw tc subs (kindOf tag) (p.1, pyStrip p.2)) = p.1 := by
    intro p hp
    have hshape : ('\n' :: ' ' :: ' ' :: (p.1.data ++ [' ']))
        = ['\n', ' ', ' '] ++ (p.1.data ++ [' ']) := rfl
    unfold nmR printRaw
    rw [hshape, pyStripL_ws_append ['\n', ' ', ' '] _ (by unfold allWS; decide),
      pyStripL_append_ws p.1.data [' '] (by unfold allWS; decide)]
    exact (hwf p hp).1.2
  have hvl : ∀ p ∈ attrs, vlR (printRaw tc subs (kindOf tag) (p.1, pyStrip p.2))
      = applyFixers tc subs (kindOf tag) p.1 (pyStrip p.2) := by
    intro p hp
    unfold vlR printRaw
    rw [show ([' '] ++ (applyFixers tc subs (kindOf tag) p.1 (pyStrip p.2)).data)
        = [' '] ++ (applyFixers tc subs (kindOf tag) p.1 (pyStrip p.2)).data from rfl]
    rw [pyStripL_ws_append [' '] _ (by unfold allWS; decide)]
    exact (hfix p hp).2
  have hmapnm : rawList.map nmR = attrs.map Prod.fst := by
    rw [hraw, List.map_map, List.map_map]
    refine List.map_congr_left ?_
    intro p hp
    exact hnm p hp
  have hfold : foldIns [] rawList
      = attrs.map fun p => (p.1, applyFixers tc subs (kindOf tag) p.1 (pyStrip p.2)) := by
    rw [foldIns_eq rawList [] (by rw [hmapnm]; exact hnd) (by simp)]
    rw [hraw, List.map_map, List.map_map, List.nil_append]
    refine List.map_congr_left ?_
    intro p hp
    simp only [Function.comp]
    rw [hnm p hp, hvl p hp]
  rw [hfold]
  rw [show String.mk (pyStripL key.data) = key from hkeys]
  rw [show String.mk (pyStripL (tag.data ++ [' '])) = tag from by
    rw [pyStripL_append_ws tag.data [' '] (by unfold allWS; decide)]
    exact htags]

/-! ## Decidability of the well-formedness side conditions -/

instance : DecidablePred nameChar := fun c => by
  unfold nameChar
  infer_instance

instance : DecidablePred wfName := fun n => by
  unfold wfName
  infer_instance

instance : DecidablePred wfTag := fun t => by
  unfold wfTag
  infer_instance

instance : DecidablePred wfKey := fun k => by
  unfold wfKey
  infer_instance

instance : DecidablePred wfAttrs := fun attrs => by
  unfold wfAttrs
  infer_instance

instance (tag key : String) (attrs : List (String × String)) :
    Decidable (wfEntryText tag key attrs) := by
  unfold wfEntryText
  infer_instance

theorem contains_mem {l : List String} {a : String} :
    l.contains a = true ↔ a ∈ l :=
  List.contains_iff_exists_mem_beq.trans (by simp)

/-! ## The claims -/

/-- C3: in a well-formed entry, each stored attribute value is the brace
content with exactly one level of enclosing braces stripped and surrounding
whitespace trimmed (`pyStrip`), while all deeper-nested brace pairs and
every other character of the content — backslashes included — pass through
verbatim: the parsed attribute list is exactly the rendered one, value by
value, and the parser applies no transformation beyond the trim. -/
theorem claim_C3 (tag key : String) (attrs : List (String × String))
    (h : wfEntryText tag key attrs) :
    read_entry (render tag key attrs)
      = some (⟨key, tag, attrs.map fun p => (p.1, pyStrip p.2)⟩, []) :=
  read_render tag key attrs h

/-- Witness for C3 at a concrete entry whose title value carries escaped
braces (`\{H\}ello world`) and whose year value carries surrounding
whitespace. -/
theorem claim_C3_witness :
    read_entry (render "misc" "abc"
        [("title", "\\\x7bH\\\x7dello world"), ("year", " 5 ")])
      = some (⟨"abc", "misc",
          [("title", "\\\x7bH\\\x7dello world"), ("year", "5")]⟩, []) := by
  rw [claim_C3 "misc" "abc" [("title", "\\\x7bH\\\x7dello world"), ("year", " 5 ")]
    (by decide)]
  decide

/-- C4: whenever the character stream ends while the brace depth of the
current entry is still nonzero — that is, on any proper initial segment of a
well-formed entry text, e.g. one missing the final closing brace —
`read_entry` returns `none`; a truncated entry is never returned
partially. -/
theorem claim_C4 (tag key : String) (attrs : List (String × String))
    (h : wfEntryText tag key attrs) (p q : List Char)
    (hpq : p ++ q = render tag key attrs) (hq : q ≠ []) :
    read_entry p = none :=
  read_entry_truncated tag key attrs h p q hpq hq

/-- Witness for C4: the doctest entry with its final `}` missing parses to
`none`. -/
theorem claim_C4_witness :
    read_entry ((render "misc" "abc"
        [("title", "Hello world"), ("year", "5")]).dropLast) = none :=
  claim_C4 "misc" "abc" [("title", "Hello world"), ("year", "5")] (by decide)
    ((render "misc" "abc" [("title", "Hello world"), ("year", "5")]).dropLast)
    ['\x7d'] (by decide) (by decide)

/-- Counterexample to C9 as stated: in `@misc{k,year = 5,title={T}}` the
attribute `year` has a value not opened with `{`, yet it is not omitted —
the closing brace of the later braced value returns the depth to 1 in value
state and commits `year` with the absorbed text `5,title=T` as its value. -/
theorem claim_C9_counterexample :
    read_entry ("@misc\x7bk,year = 5,title=\x7bT\x7d\x7d".data)
      = some (⟨"k", "misc", [("year", "5,title=T")]⟩, []) ∧
    "year" ∈ [("year", "5,title=T")].map Prod.fst := by
  exact ⟨by decide, by decide⟩

/-- C9 (amended): a value is committed only when a `}` returns the depth to
exactly 1 while in value state.  An unbraced value therefore accumulates the
following characters into its token: if the entry closes first, the pending
attribute is silently dropped — `@misc{k,year = 5}` parses to key `k` with
an empty attribute mapping — while a later braced value's closing brace
commits the pending attribute with the absorbed text as its value. -/
theorem claim_C9 :
    read_entry ("@misc\x7bk,year = 5\x7d".data)
      = some (⟨"k", "misc", []⟩, []) ∧
    read_entry ("@misc\x7bk,year = 5,title=\x7bT\x7d\x7d".data)
      = some (⟨"k", "misc", [("year", "5,title=T")]⟩, []) := by
  exact ⟨by decide, by decide⟩

/-- C10: an entry with no `,` after the opening brace parses to `none` even
though its braces are balanced: the key-reading loop consumes characters up
to a comma or end of stream, so the closing `}` is swallowed into the key
token and the body scan then hits end of stream at depth 1. -/
theorem claim_C10 (tag key : String) (htag : ∀ c ∈ tag.data, c ≠ '\x7b')
    (hkey : ∀ c ∈ key.data, c ≠ ',') :
    read_entry ('@' :: (tag.data ++ '\x7b' :: (key.data ++ ['\x7d']))) = none := by
  unfold read_entry
  rw [findAt_at]
  simp only [Option.some_bind]
  rw [scanUntil_hit '\x7b' tag.data _ htag]
  simp only [Option.some_bind]
  rw [scanUntil_none ',' (key.data ++ ['\x7d']) ?_]
  · rfl
  · intro c hc
    rcases List.mem_append.mp hc with h1 | h2
    · exact hkey c h1
    · have hc2 : c = '\x7d' := by simpa using h2
      subst hc2
      decide

/-- Witness for C10 at the concrete input `@misc{abc}`. -/
theorem claim_C10_witness :
    read_entry ('@' :: ("misc".data ++ '\x7b' :: ("abc".data ++ ['\x7d']))) = none :=
  claim_C10 "misc" "abc" (by decide) (by decide)

/-- Counterexample to C1 as stated: a file with two entries sharing the key
`a` whose first occurrence validates successfully.  The driver records a key
as seen only when validation fails, so here no duplicate warning is emitted
(the claim demands exactly one) and both occurrences are validated (the
claim demands that only the first be validated). -/
theorem claim_C1_counterexample :
    parseAll ("@misc\x7ba,x=\x7b1\x7d\x7d@misc\x7ba,x=\x7b1\x7d\x7d".data)
      = [⟨"a", "misc", [("x", "1")]⟩, ⟨"a", "misc", [("x", "1")]⟩] ∧
    reportRun id [] ("@misc\x7ba,x=\x7b1\x7d\x7d@misc\x7ba,x=\x7b1\x7d\x7d".data)
      = [Event.validated "a", Event.validated "a"] ∧
    (reportRun id [] ("@misc\x7ba,x=\x7b1\x7d\x7d@misc\x7ba,x=\x7b1\x7d\x7d".data)).count
        (Event.dupWarning "a") = 0 := by
  exact ⟨by decide, by decide, by decide⟩

/-- C1 (amended): in report mode, for a file with two entries sharing the
same key whose first occurrence fails validation (only failing keys are
recorded as seen), the driver validates the first occurrence, reports its
failures, and emits exactly one duplicate warning for the second occurrence,
which is discarded without being validated — the trace is exactly
`[validated, check-message, duplicate-warning]`. -/
theorem claim_C1 (tc : String → String) (subs : List (String × String))
    (cs : List Char) (e1 e2 : BibloEntry)
    (hp : parseAll cs = [e1, e2]) (hname : e2.name = e1.name)
    (hfail : validate tc subs e1 ≠ []) :
    reportRun tc subs cs
      = [Event.validated e1.name, Event.checkMsg e1.name (validate tc subs e1),
          Event.dupWarning e1.name] := by
  unfold reportRun
  rw [hp]
  simp [reportFold, hfail, hname]

/-- Witness for C1 at a concrete file: two `@book` entries with key `a` and
a missing `location`; the first fails validation, so the second triggers the
single duplicate warning. -/
theorem claim_C1_witness :
    reportRun id []
        ("@book\x7ba,title=\x7bX\x7d\x7d@book\x7ba,title=\x7bX\x7d\x7d".data)
      = [Event.validated "a", Event.checkMsg "a" ["location missing"],
          Event.dupWarning "a"] := by
  have h := claim_C1 id []
    ("@book\x7ba,title=\x7bX\x7d\x7d@book\x7ba,title=\x7bX\x7d\x7d".data)
    ⟨"a", "book", [("title", "X")]⟩ ⟨"a", "book", [("title", "X")]⟩
    (by decide) (by decide) (by decide)
  exact h.trans (by decide)

/-- C5: in fix mode the driver prints entries in the order they were parsed,
not sorted by key — the sort by key the source computes (`sortByName`) has
no effect on the output.  Stated generally, and exhibited at a file whose
parse order (`b` before `a`) differs from the sorted order. -/
theorem claim_C5 :
    (∀ (tc : String → String) (subs : List (String × String)) (cs : List Char),
      fixRun tc subs cs = (parseAll cs).map (printEntry tc subs)) ∧
    parseAll ("@misc\x7bb,x=\x7b1\x7d\x7d@misc\x7ba,x=\x7b2\x7d\x7d".data)
      = [⟨"b", "misc", [("x", "1")]⟩, ⟨"a", "misc", [("x", "2")]⟩] ∧
    sortByName (parseAll ("@misc\x7bb,x=\x7b1\x7d\x7d@misc\x7ba,x=\x7b2\x7d\x7d".data))
      = [⟨"a", "misc", [("x", "2")]⟩, ⟨"b", "misc", [("x", "1")]⟩] ∧
    fixRun id [] ("@misc\x7bb,x=\x7b1\x7d\x7d@misc\x7ba,x=\x7b2\x7d\x7d".data)
      = [printEntry id [] ⟨"b", "misc", [("x", "1")]⟩,
          printEntry id [] ⟨"a", "misc", [("x", "2")]⟩] ∧
    fixRun id [] ("@misc\x7bb,x=\x7b1\x7d\x7d@misc\x7ba,x=\x7b2\x7d\x7d".data)
      ≠ (sortByName (parseAll ("@misc\x7bb,x=\x7b1\x7d\x7d@misc\x7ba,x=\x7b2\x7d\x7d".data))).map
          (printEntry id []) := by
  refine ⟨fun tc subs cs => rfl, by decide, by decide, by decide, by decide⟩

/-- C6: the journal predicate of article entries fails on any value
containing the word `Transactions` (in any letter case) as a
whitespace-delimited whole word, and passes on any value all of whose words,
lowercased, are neither in the fixed stop-word list nor among the
substitution table's lowercased keys; and `is_ieee_abrev` is exactly the
validator the article class registers for `journal`. -/
theorem claim_C6 (tc : String → String) (subs : List (String × String))
    (s : String) :
    ((∃ w ∈ pySplit s, pyLower w = "transactions") →
      is_ieee_abrev subs s = false) ∧
    ((∀ w ∈ pySplit s, pyLower w ∉ ieeeStop ∧
        pyLower w ∉ subs.map fun p => pyLower p.1) →
      is_ieee_abrev subs s = true) ∧
    validatorsFor tc subs Kind.article
      = [("journal", [("specials words are acronyms", is_ieee_abrev subs)])] := by
  refine ⟨?_, ?_, rfl⟩
  · rintro ⟨w, hw, hlow⟩
    unfold is_ieee_abrev
    rw [List.all_eq_false]
    refine ⟨w, hw, ?_⟩
    show ¬(!(ieeeStop.contains (pyLower w)) &&
      !((subs.map fun p => pyLower p.1).contains (pyLower w))) = true
    rw [hlow, show ieeeStop.contains "transactions" = true from rfl]
    simp
  · intro hall
    unfold is_ieee_abrev
    rw [List.all_eq_true]
    intro w hw
    obtain ⟨h1, h2⟩ := hall w hw
    have hc1 : ieeeStop.contains (pyLower w) = false := by
      rw [← Bool.not_eq_true, contains_mem]
      exact h1
    have hc2 : (subs.map fun p => pyLower p.1).contains (pyLower w) = false := by
      rw [← Bool.not_eq_true, contains_mem]
      exact h2
    show (!(ieeeStop.contains (pyLower w)) &&
      !((subs.map fun p => pyLower p.1).contains (pyLower w))) = true
    rw [hc1, hc2]
    rfl

/-- Witness for C6: `IEEE Transactions on Communication` fails the
predicate; `Physical Review Letters` (no stop words, no table keys) passes
it, with the table `{Proceedings ↦ Proc.}`. -/
theorem claim_C6_witness :
    is_ieee_abrev [("Proceedings", "Proc.")] "IEEE Transactions on Communication"
        = false ∧
    is_ieee_abrev [("Proceedings", "Proc.")] "Physical Review Letters" = true :=
  ⟨(claim_C6 id [("Proceedings", "Proc.")] "IEEE Transactions on Communication").1
      ⟨"Transactions", by decide, by decide⟩,
    (claim_C6 id [("Proceedings", "Proc.")] "Physical Review Letters").2.1
      (by decide)⟩

/-- C7: the location predicate of book entries passes exactly the values
with one or two commas and fails those with zero or at least three; and it
is exactly the validator the book class registers for `location`. -/
theorem claim_C7 (tc : String → String) (subs : List (String × String))
    (s : String) :
    ((s.data.count ',' = 1 ∨ s.data.count ',' = 2) →
      location_has_two_or_three_elements s = true) ∧
    ((s.data.count ',' = 0 ∨ 3 ≤ s.data.count ',') →
      location_has_two_or_three_elements s = false) ∧
    lookupA (validatorsFor tc subs Kind.book) "location"
      = some [("Location has form 'City, Country' or 'City, State, Country'",
          location_has_two_or_three_elements)] := by
  refine ⟨?_, ?_, rfl⟩
  · rintro (h | h) <;> simp [location_has_two_or_three_elements, h]
  · intro h
    have hne : s.data.count ',' ≠ 1 ∧ s.data.count ',' ≠ 2 := by omega
    simp [location_has_two_or_three_elements, hne.1, hne.2]

/-- Witness for C7 at concrete locations with one, zero and three commas. -/
theorem claim_C7_witness :
    location_has_two_or_three_elements "London, UK" = true ∧
    location_has_two_or_three_elements "London" = false ∧
    location_has_two_or_three_elements "a, b, c, d" = false :=
  ⟨(claim_C7 id [] "London, UK").1 (Or.inl (by decide)),
    (claim_C7 id [] "London").2.1 (Or.inl (by decide)),
    (claim_C7 id [] "a, b, c, d").2.1 (Or.inr (by decide))⟩

/-- C8: under the hypothesis that the injected titlecase capability is
idempotent, the book title fixer is idempotent: fixing a book title yields a
value accepted by `is_titlecase`, and re-fixing the output returns it
unchanged; and the book class registers exactly `fix_titlecase` for
`title`. -/
theorem claim_C8 (tc : String → String) (subs : List (String × String))
    (hidem : ∀ s, tc (tc s) = tc s) (s : String) :
    is_titlecase tc (applyFixers tc subs Kind.book "title" s) = true ∧
    applyFixers tc subs Kind.book "title" (applyFixers tc subs Kind.book "title" s)
      = applyFixers tc subs Kind.book "title" s ∧
    fixersFor tc subs Kind.book = [("title", [fix_titlecase tc])] := by
  refine ⟨?_, ?_, rfl⟩
  · show (tc (tc s) == tc s) = true
    rw [hidem s]
    simp
  · show tc (tc s) = tc s
    exact hidem s

/-- Witness for C8 with the identity capability (trivially idempotent) at a
concrete title. -/
theorem claim_C8_witness :
    is_titlecase id (applyFixers id [] Kind.book "title" "hello world") = true ∧
    applyFixers id [] Kind.book "title"
        (applyFixers id [] Kind.book "title" "hello world")
      = applyFixers id [] Kind.book "title" "hello world" ∧
    fixersFor id [] Kind.book = [("title", [fix_titlecase id])] :=
  claim_C8 id [] (fun _ => rfl) "hello world"

/-- Counterexample to C2 as stated: for the well-formed book entry
`@book{k,title={hello world},location={a, b}}` and the title-casing
capability the spec describes (modelled by `specTitlecase`), serializing the
parsed entry applies the title fixer, so the reparsed attribute set differs
from the input's (`Hello World` vs `hello world`): the round trip preserves
key, kind and attribute names but not the attribute values. -/
theorem claim_C2_counterexample :
    wfEntryText "book" "k" [("title", "hello world"), ("location", "a, b")] ∧
    read_entry (render "book" "k" [("title", "hello world"), ("location", "a, b")])
      = some (⟨"k", "book", [("title", "hello world"), ("location", "a, b")]⟩, []) ∧
    read_entry (printEntry specTitlecase []
        ⟨"k", "book", [("title", "hello world"), ("location", "a, b")]⟩).data
      = some (⟨"k", "book", [("title", "Hello World"), ("location", "a, b")]⟩, []) ∧
    ([("title", "Hello World"), ("location", "a, b")] :
        List (String × String))
      ≠ [("title", "hello world"), ("location", "a, b")] := by
  exact ⟨by decide, by decide, by decide, by decide⟩

/-- C2 (amended): for every well-formed single entry text with at least one
attribute, parsing and serializing reproduces a text that parses to the same
key, the same kind (type tag) and the same attribute names in the same
order; each attribute value is reproduced after applying the kind's fixers
to it (hence verbatim whenever no fixer is registered, e.g. for every
generic entry), provided the fixed values are again brace-balanced and
stripped. -/
theorem claim_C2 (tc : String → String) (subs : List (String × String))
    (tag key : String) (attrs : List (String × String))
    (h : wfEntryText tag key attrs) (hne : attrs ≠ [])
    (hfix : ∀ p ∈ attrs,
      balGo (applyFixers tc subs (kindOf tag) p.1 (pyStrip p.2)).data 0 = true ∧
        pyStrip (applyFixers tc subs (kindOf tag) p.1 (pyStrip p.2))
          = applyFixers tc subs (kindOf tag) p.1 (pyStrip p.2)) :
    read_entry (render tag key attrs)
      = some (⟨key, tag, attrs.map fun p => (p.1, pyStrip p.2)⟩, []) ∧
    read_entry (printEntry tc subs
        ⟨key, tag, attrs.map fun p => (p.1, pyStrip p.2)⟩).data
      = some (⟨key, tag, attrs.map fun p =>
          (p.1, applyFixers tc subs (kindOf tag) p.1 (pyStrip p.2))⟩, []) ∧
    (attrs.map fun p =>
        (p.1, applyFixers tc subs (kindOf tag) p.1 (pyStrip p.2))).map Prod.fst
      = (attrs.map fun p => (p.1, pyStrip p.2)).map Prod.fst := by
  refine ⟨read_render tag key attrs h, read_print tc subs tag key attrs h hne hfix, ?_⟩
  simp

/-- Witness for C2 at a concrete book entry whose title is already
title-cased (so the fixed values satisfy the side conditions). -/
theorem claim_C2_witness :
    read_entry (render "book" "k" [("title", "Hello World"), ("location", "a, b")])
      = some (⟨"k", "book",
          [("title", "Hello World"), ("location", "a, b")].map fun p =>
            (p.1, pyStrip p.2)⟩, []) ∧
    read_entry (printEntry specTitlecase []
        ⟨"k", "book",
          [("title", "Hello World"), ("location", "a, b")].map fun p =>
            (p.1, pyStrip p.2)⟩).data
      = some (⟨"k", "book",
          [("title", "Hello World"), ("location", "a, b")].map fun p =>
            (p.1, applyFixers specTitlecase [] (kindOf "book") p.1 (pyStrip p.2))⟩,
        []) ∧
    ([("title", "Hello World"), ("location", "a, b")].map fun p =>
        (p.1, applyFixers specTitlecase [] (kindOf "book") p.1 (pyStrip p.2))).map
        Prod.fst
      = ([("title", "Hello World"), ("location", "a, b")].map fun p =>
          (p.1, pyStrip p.2)).map Prod.fst :=
  claim_C2 specTitlecase [] "book" "k"
    [("title", "Hello World"), ("location", "a, b")]
    (by decide) (by decide) (by decide)

end Biblo

